import Mathlib

/-!
Shallow embedding of the migration engine of `edgedb-cli`
(modules `src/migrations/db_migration.rs` and `src/migrations/create.rs`),
together with theorems settling the specification claims.

Rust collection types are modelled as follows:
* `BTreeMap<String, Vec<M>>` — only point insertion (`entry(..).push`) and
  `remove` are used by the code, so it is modelled as an association list
  with unique keys (`alistAdd` / `alistRemove`); the map's iteration order
  is never observed.
* `IndexMap<String, M>` — a list of key/value pairs in insertion order,
  where inserting an existing key overwrites the value in place
  (`indexInsert`), exactly IndexMap's `insert` semantics.
* `Vec<M>` used as a stack (`push` / `pop` at the back) — a `List` whose
  HEAD is the top of the stack; pushing the children `c₁ … cₙ` in order
  therefore prepends `[cₙ, …, c₁]`, i.e. `children.reverse ++ stack`, and
  the initial root vector `[r₁ … rₖ]` becomes `roots.reverse`.
-/

namespace EdgedbCli

/-- `schema::MigrationGeneratedBy` as declared in `db_migration.rs`: a CLOSED
enumeration (the source carries a `TODO` noting it has to be open-ended). -/
inductive MigrationGeneratedBy where
  | DevMode
  | DDLStatement
deriving DecidableEq, Repr

/-- Decoding of a server-reported `generated_by` tag into the closed
enumeration `MigrationGeneratedBy`: only the two declared variants decode;
any other tag has no corresponding constructor and decoding fails
(`none`), as the derived `Queryable` instance of a closed Rust enum does. -/
def decodeGeneratedBy (tag : String) : Option MigrationGeneratedBy :=
  if tag = "DevMode" then some MigrationGeneratedBy.DevMode
  else if tag = "DDLStatement" then some MigrationGeneratedBy.DDLStatement
  else none

/-- `DBMigration` record from `db_migration.rs`. -/
structure DBMigration where
  name : String
  script : String
  parent_names : List String
  generated_by : Option MigrationGeneratedBy
deriving DecidableEq, Repr

/-- `BTreeMap::entry(parent).or_insert_with(Vec::new).push(child)`:
append `c` to the entry of key `p`, creating the entry if absent. -/
def alistAdd (m : List (String × List DBMigration)) (p : String)
    (c : DBMigration) : List (String × List DBMigration) :=
  match m with
  | [] => [(p, [c])]
  | (k, cs) :: rest =>
    if k = p then (k, cs ++ [c]) :: rest else (k, cs) :: alistAdd rest p c

/-- `BTreeMap::remove(k)`: return the removed entry's value together with the
remaining map, or `none` when the key is absent. -/
def alistRemove (m : List (String × List DBMigration)) (k : String) :
    Option (List DBMigration × List (String × List DBMigration)) :=
  match m with
  | [] => none
  | (k', cs) :: rest =>
    if k' = k then some (cs, rest)
    else
      match alistRemove rest k with
      | none => none
      | some (cs2, rest2) => some (cs2, (k', cs) :: rest2)

/-- `IndexMap::insert`: an existing key keeps its position and gets the new
value; a new key is appended at the end. -/
def indexInsert (m : List (String × DBMigration)) (k : String)
    (v : DBMigration) : List (String × DBMigration) :=
  match m with
  | [] => [(k, v)]
  | (k', v') :: rest =>
    if k' = k then (k, v) :: rest else (k', v') :: indexInsert rest k v

/-- Size measure of the parent → children map: one per entry plus one per
stored child; `alistRemove` strictly decreases it. -/
def byParentMeasure (m : List (String × List DBMigration)) : Nat :=
  (m.map (fun e => 1 + e.2.length)).sum

theorem alistRemove_measure (m : List (String × List DBMigration)) (k : String)
    (cs : List DBMigration) (m' : List (String × List DBMigration))
    (h : alistRemove m k = some (cs, m')) :
    byParentMeasure m = byParentMeasure m' + 1 + cs.length := by
  induction m generalizing m' with
  | nil => simp [alistRemove] at h
  | cons e rest ih =>
    obtain ⟨k', cs'⟩ := e
    by_cases hk : k' = k
    · simp [alistRemove, hk] at h
      obtain ⟨h1, h2⟩ := h
      subst h1; subst h2
      simp [byParentMeasure]
      ring
    · simp [alistRemove, hk] at h
      cases hrec : alistRemove rest k with
      | none => rw [hrec] at h; simp at h
      | some val =>
        obtain ⟨cs2, rest2⟩ := val
        rw [hrec] at h
        simp at h
        obtain ⟨h1, h2⟩ := h
        subst h1; subst h2
        have := ih rest2 hrec
        simp [byParentMeasure] at this ⊢
        omega

/-- The `while let Some(item) = queue.pop()` loop of
`linearize_db_migrations`.  The queue's head is the top of the stack. -/
def linearizeLoop (byParent : List (String × List DBMigration))
    (output : List (String × DBMigration)) (visited : List String)
    (queue : List DBMigration) : List (String × DBMigration) :=
  match queue with
  | [] => output
  | item :: rest =>
    let output' := indexInsert output item.name item
    let visited' := item.name :: visited
    match h : alistRemove byParent item.name with
    | none => linearizeLoop byParent output' visited' rest
    | some (children, byParent') =>
      let toPush := children.filter (fun c => ¬ visited'.contains c.name)
      linearizeLoop byParent' output' visited' (toPush.reverse ++ rest)
termination_by byParentMeasure byParent + queue.length
decreasing_by
  · simp only [List.length_cons]
    omega
  · have hm := alistRemove_measure byParent item.name children byParent' h
    have hfil : (children.filter (fun c => ¬ (item.name :: visited).contains c.name)).length
        ≤ children.length := List.length_filter_le _ _
    simp only [List.length_append, List.length_reverse, List.length_cons]
    omega

/-- The `for item in &migrations { for parent in item.iter_parents() { … } }`
construction of the parent → children multimap. -/
def buildByParent (migrations : List DBMigration) :
    List (String × List DBMigration) :=
  migrations.foldl
    (fun m item => item.parent_names.foldl (fun m p => alistAdd m p item) m) []

/-- `linearize_db_migrations` from `db_migration.rs`: build the
parent → children multimap, seed the stack with the roots in input order,
then run the pop/emit/push loop. -/
def linearize_db_migrations (migrations : List DBMigration) :
    List (String × DBMigration) :=
  let by_parent := buildByParent migrations
  let roots := migrations.filter (fun item => item.parent_names.isEmpty)
  linearizeLoop by_parent [] [] roots.reverse

/-- A record is reachable when it is a root of the input set or a child
(through `parent_names`) of a reachable record of the input set. -/
inductive Reachable (ms : List DBMigration) : DBMigration → Prop where
  | root (r : DBMigration) : r ∈ ms → r.parent_names = [] → Reachable ms r
  | child (p c : DBMigration) :
      Reachable ms p → c ∈ ms → p.name ∈ c.parent_names → Reachable ms c

/-- The four-record example of the specification's linearizer test. -/
def recA : DBMigration := ⟨"A", "", [], none⟩

def recB : DBMigration := ⟨"B", "", ["A"], none⟩

def recC : DBMigration := ⟨"C", "", ["A"], none⟩

def recD : DBMigration := ⟨"D", "", ["B", "C"], none⟩

def exampleABCD : List DBMigration := [recA, recB, recC, recD]

/-! ### The non-interactive describe/apply loop (`create.rs`)

`f64` confidences are modelled as rationals: the code only compares them
with `>=` against the literal threshold `0.99999`, and `Rat` carries the
exact values of such decimal literals. -/

/-- `SAFE_CONFIDENCE` from `create.rs`: the threshold 0.99999, written as
the exact rational 99999/100000 (see `SAFE_CONFIDENCE_eq`). -/
def SAFE_CONFIDENCE : Rat := mkRat 99999 100000

/-- `RequiredUserInput` from `create.rs`. -/
structure RequiredUserInput where
  name : String
  prompt : String
deriving DecidableEq, Repr

/-- `StatementProposal` from `create.rs`. -/
structure StatementProposal where
  text : String
  required_user_input : List RequiredUserInput
deriving DecidableEq, Repr

/-- `Proposal` from `create.rs`. -/
structure Proposal where
  statements : List StatementProposal
  confidence : Rat
  prompt : Option String
deriving DecidableEq, Repr

/-- `CurrentMigration` from `create.rs`. -/
structure CurrentMigration where
  confirmed : List String
  proposed : List Proposal
deriving DecidableEq, Repr

/-- The `bail!("cannot apply {} without user input", statement.text)` error,
together with the prompts printed right before it (`eprintln!` for every
entry of `required_user_input`). -/
structure InputRequired where
  text : String
  prompts : List String
deriving DecidableEq, Repr

/-- The inner `for statement in proposal.statements` loop of
`run_non_interactive`: returns the texts passed to `cli.execute`, in
order, and the error (if any) raised on the first statement whose
`required_user_input` is non-empty; statements after the failing one are
not executed. -/
def runStatements : List StatementProposal → List String × Option InputRequired
  | [] => ([], none)
  | s :: rest =>
    if s.required_user_input.isEmpty then
      let (t, e) := runStatements rest
      (s.text :: t, e)
    else ([], some ⟨s.text, s.required_user_input.map (fun i => i.prompt)⟩)

/-- The outer `for proposal in data.proposed` loop of `run_non_interactive`:
only proposals with `confidence >= SAFE_CONFIDENCE` have their statements
run; an error aborts the whole loop. -/
def runProposals : List Proposal → List String × Option InputRequired
  | [] => ([], none)
  | p :: rest =>
    if SAFE_CONFIDENCE ≤ p.confidence then
      match runStatements p.statements with
      | (t, some e) => (t, some e)
      | (t, none) =>
        let (t2, e2) := runProposals rest
        (t ++ t2, e2)
    else runProposals rest

/-- Sequencing of two trace/error results: a failed first part keeps its
trace and error and suppresses the second part entirely. -/
def combineRun : List String × Option InputRequired →
    List String × Option InputRequired → List String × Option InputRequired
  | (t, some e), _ => (t, some e)
  | (t, none), (t2, e2) => (t ++ t2, e2)

/-- Statements of all proposals at or above the confidence threshold, in
proposal order — the statements the specification says are applied. -/
def specHighConfStatements (ps : List Proposal) : List StatementProposal :=
  (ps.filter (fun p => SAFE_CONFIDENCE ≤ p.confidence)).flatMap
    (fun p => p.statements)

/-- Specification-side behaviour on a statement list, following the spec's
words: apply each statement in order until one declares a required user
input; fail there, reporting that statement's text and every required
input's prompt text. -/
def statementSpec (ss : List StatementProposal) :
    List String × Option InputRequired :=
  ((ss.takeWhile (fun s => s.required_user_input.isEmpty)).map (fun s => s.text),
   ((ss.dropWhile (fun s => s.required_user_input.isEmpty)).head?).map
     (fun s => ⟨s.text, s.required_user_input.map (fun i => i.prompt)⟩))

/-- Specification-side behaviour of one round of the non-interactive loop:
exactly the high-confidence statements are applied, in order, stopping
with an error at the first one that needs user input; proposals below the
threshold contribute nothing. -/
def specRunProposals (ps : List Proposal) : List String × Option InputRequired :=
  statementSpec (specHighConfStatements ps)

/-! ### The migration file writer (`_write_migration` in `create.rs`)

The writer is modelled by the sequence of filesystem operations it issues,
interpreted over an abstract filesystem state; a crash at any point is a
strict prefix of that sequence. -/

/-- A path as `_write_migration` manipulates it: a parent directory plus a
file name (`filepath.parent()` / `filepath.file_name()`). -/
structure FPath where
  dir : String
  fname : String
deriving DecidableEq, Repr

/-- `dir.join(format!(".~{}.tmp", filepath.file_name()))`: the sibling
temporary path, the final file name wrapped in a hidden-file/temp marker. -/
def tmpFile (p : FPath) : FPath :=
  ⟨p.dir, ".~" ++ p.fname ++ ".tmp"⟩

/-- Abstract filesystem: file contents keyed by path, plus the set of
existing directories. -/
structure FS where
  files : List (FPath × String)
  dirs : List String
deriving DecidableEq, Repr

def lookupFile (fs : FS) (p : FPath) : Option String :=
  (fs.files.find? (fun e => e.1 = p)).map (fun e => e.2)

def eraseFile (fs : FS) (p : FPath) : FS :=
  ⟨fs.files.filter (fun e => ¬ (e.1 = p)), fs.dirs⟩

def setFile (fs : FS) (p : FPath) (c : String) : FS :=
  ⟨(p, c) :: fs.files.filter (fun e => ¬ (e.1 = p)), fs.dirs⟩

/-- The filesystem operations `_write_migration` issues, in source order. -/
inductive FsOp where
  | createDirAll (d : String)
  | removeFileQuiet (p : FPath)
  | createFile (p : FPath)
  | appendFile (p : FPath) (s : String)
  | flushFile (p : FPath)
  | renameFile (src dst : FPath)
deriving DecidableEq, Repr

/-- Effect of one operation on the abstract filesystem.  `removeFileQuiet`
models `fs::remove_file(..).ok()` (failure ignored); `flushFile` is the
buffer flush, a no-op on the file map since writes are modelled as direct
appends. -/
def applyOp (fs : FS) : FsOp → FS
  | .createDirAll d =>
    ⟨fs.files, if fs.dirs.contains d then fs.dirs else d :: fs.dirs⟩
  | .removeFileQuiet p => eraseFile fs p
  | .createFile p => setFile fs p ""
  | .appendFile p s =>
    match lookupFile fs p with
    | some c => setFile fs p (c ++ s)
    | none => fs
  | .flushFile _ => fs
  | .renameFile src dst =>
    match lookupFile fs src with
    | some c => setFile (eraseFile fs src) dst c
    | none => fs

def applyOps (fs : FS) (ops : List FsOp) : FS :=
  ops.foldl applyOp fs

/-- Rust `str::lines`: split on `\n`, strip a trailing `\r` from each
line, and do not yield a final empty line for a trailing newline. -/
def rustLines (s : String) : List String :=
  if s = "" then []
  else
    let parts := s.splitOn "\n"
    let parts := if parts.getLast? = some "" then parts.dropLast else parts
    parts.map (fun l => if l.endsWith "\r" then l.dropRight 1 else l)

/-- Modelled from the spec: `migration::Hasher` (module
`migrations/migration.rs`, whose body is not among the covered sources)
folds the parent id and the statement texts, in call order, into a running
accumulator, and `make_id` renders a deterministic content identifier of
`(parent id, ordered statement texts)`.  The digest function itself is
opaque to every claim; a concrete deterministic fold stands in for it. -/
structure Hasher where
  parent : String
  sources : List String
deriving DecidableEq, Repr

def Hasher.new (parent : String) : Hasher :=
  ⟨parent, []⟩

def Hasher.source (h : Hasher) (s : String) : Hasher :=
  ⟨h.parent, h.sources ++ [s]⟩

def Hasher.make_id (h : Hasher) : String :=
  "m1" ++ toString ((h.parent :: h.sources).foldl
    (fun acc s => s.foldl (fun a c => (a * 31 + c.toNat) % 1000000007) acc) 7)

/-- Concatenation of a list of strings (the bytes reaching the temporary
file, in write order). -/
def concatAll (ws : List String) : String :=
  ws.foldl (fun a s => a ++ s) ""

/-- The strings passed to `file.write` by `_write_migration`, in order:
the `CREATE MIGRATION` header naming the content-addressed id, the `ONTO`
parent line, the opening brace, every line of every semicolon-suffixed
confirmed statement with a fixed 2-space indent, and the closing brace. -/
def contentWrites (descr : CurrentMigration) (parent : String) : List String :=
  let statements := descr.confirmed.map (fun s => s ++ ";")
  let hasher := statements.foldl Hasher.source (Hasher.new parent)
  let id := hasher.make_id
  ["CREATE MIGRATION " ++ id ++ "\n", "    ONTO " ++ parent ++ "\n", "\x7b\n"]
  ++ statements.flatMap (fun st => (rustLines st).map (fun l => "  " ++ l ++ "\n"))
  ++ ["\x7d;\n"]

/-- Every filesystem operation of `_write_migration` before the final
rename, in source order: conditional recursive directory creation (only
when the final path does not exist yet), removal of a stale temp file,
creation of the temp file, the content writes, and the flush. -/
def writeMigrationPre (fs : FS) (descr : CurrentMigration) (parent : String)
    (filepath : FPath) : List FsOp :=
  let tmp_file := tmpFile filepath
  (if (lookupFile fs filepath).isSome then [] else [FsOp.createDirAll filepath.dir])
  ++ [FsOp.removeFileQuiet tmp_file, FsOp.createFile tmp_file]
  ++ (contentWrites descr parent).map (FsOp.appendFile tmp_file)
  ++ [FsOp.flushFile tmp_file]

/-- `_write_migration` from `create.rs` as its full operation sequence:
everything in `writeMigrationPre`, and only then the atomic rename of the
temp path onto the final path. -/
def writeMigrationOps (fs : FS) (descr : CurrentMigration) (parent : String)
    (filepath : FPath) : List FsOp :=
  writeMigrationPre fs descr parent filepath
    ++ [FsOp.renameFile (tmpFile filepath) filepath]

/-! ### Schema file reading (`read_schema_file` in `create.rs`) -/

/-- Number of characters consumed up to and including the first occurrence
of `c`, or `none` when `c` does not occur. -/
def skipToChar (c : Char) : List Char → Option Nat
  | [] => none
  | x :: rest => if x = c then some 1 else (skipToChar c rest).map (fun n => n + 1)

theorem skipToChar_bounds (c : Char) (s : List Char) (n : Nat)
    (h : skipToChar c s = some n) : 1 ≤ n ∧ n ≤ s.length := by
  induction s generalizing n with
  | nil => simp [skipToChar] at h
  | cons x rest ih =>
    by_cases hx : x = c
    · simp [skipToChar, hx] at h
      simp only [List.length_cons]
      omega
    · simp [skipToChar, hx] at h
      cases hrec : skipToChar c rest with
      | none => rw [hrec] at h; simp at h
      | some m =>
        rw [hrec] at h
        simp at h
        have := ih m hrec
        simp only [List.length_cons]
        omega

/-- Modelled from the spec: `edgeql_parser::preparser::full_statement`
(an external-crate dependency, not among the covered sources) scans for
the end of the first complete top-level statement — a semicolon at brace
depth zero — treating semicolons inside braces, inside `'…'`/`"…"` string
literals and inside `#`-to-end-of-line comments as non-boundaries; it
returns the number of characters consumed (terminator included), or fails
when no complete statement remains. -/
def fullStatementAux : List Char → Nat → Option Nat
  | [], _ => none
  | c :: rest, depth =>
    if c = ';' ∧ depth = 0 then some 1
    else if c = '{' then (fullStatementAux rest (depth + 1)).map (fun n => n + 1)
    else if c = '}' then (fullStatementAux rest (depth - 1)).map (fun n => n + 1)
    else if c = '\'' ∨ c = '"' then
      match skipToChar c rest with
      | none => none
      | some n => (fullStatementAux (rest.drop n) depth).map (fun m => m + n + 1)
    else if c = '#' then
      match skipToChar '\n' rest with
      | none => none
      | some n => (fullStatementAux (rest.drop n) depth).map (fun m => m + n + 1)
    else (fullStatementAux rest depth).map (fun n => n + 1)
termination_by s _ => s.length
decreasing_by
  all_goals (first
    | (simp only [List.length_cons]; omega)
    | (simp only [List.length_cons, List.length_drop]; omega))

def fullStatement (s : List Char) : Option Nat :=
  fullStatementAux s 0

theorem fullStatementAux_bounds (s : List Char) (d : Nat) :
    ∀ k, fullStatementAux s d = some k → 1 ≤ k ∧ k ≤ s.length := by
  induction s, d using fullStatementAux.induct with
  | case1 d =>
    intro k h
    simp [fullStatementAux] at h
  | case2 c rest depth hsemi =>
    intro k h
    simp only [fullStatementAux] at h
    rw [if_pos hsemi] at h
    simp at h
    simp [← h]
  | case3 rest depth hsemi ih =>
    intro k h
    simp only [fullStatementAux] at h
    simp [Option.map_eq_some'] at h
    obtain ⟨m, hrec, hk⟩ := h
    have := ih m hrec
    simp only [List.length_cons]
    omega
  | case4 rest depth hsemi hbrace ih =>
    intro k h
    simp only [fullStatementAux] at h
    simp [Option.map_eq_some'] at h
    obtain ⟨m, hrec, hk⟩ := h
    have := ih m hrec
    simp only [List.length_cons]
    omega
  | case5 c rest depth hsemi hbrace hclose hquote hskip =>
    intro k h
    simp only [fullStatementAux] at h
    rw [if_neg hsemi, if_neg hbrace, if_neg hclose, if_pos hquote, hskip] at h
    simp at h
  | case6 c rest depth hsemi hbrace hclose hquote m hskip ih =>
    intro k h
    simp only [fullStatementAux] at h
    rw [if_neg hsemi, if_neg hbrace, if_neg hclose, if_pos hquote, hskip] at h
    simp [Option.map_eq_some'] at h
    obtain ⟨j, hrec, hk⟩ := h
    have h1 := ih j hrec
    have h2 := skipToChar_bounds c rest m hskip
    simp only [List.length_drop] at h1
    simp only [List.length_cons]
    omega
  | case7 rest depth hskip hsemi hbrace hclose hquote =>
    intro k h
    simp only [fullStatementAux] at h
    rw [hskip] at h
    simp at h
  | case8 rest depth m hskip hsemi hbrace hclose hquote ih =>
    intro k h
    simp only [fullStatementAux] at h
    rw [hskip] at h
    simp [Option.map_eq_some'] at h
    obtain ⟨j, hrec, hk⟩ := h
    have h1 := ih j hrec
    have h2 := skipToChar_bounds '\n' rest m hskip
    simp only [List.length_drop] at h1
    simp only [List.length_cons]
    omega
  | case9 c rest depth hsemi hbrace hclose hquote hhash ih =>
    intro k h
    simp only [fullStatementAux] at h
    rw [if_neg hsemi, if_neg hbrace, if_neg hclose, if_neg hquote, if_neg hhash] at h
    simp [Option.map_eq_some'] at h
    obtain ⟨m, hrec, hk⟩ := h
    have := ih m hrec
    simp only [List.length_cons]
    omega

theorem fullStatement_bounds (s : List Char) (n : Nat)
    (h : fullStatement s = some n) : 1 ≤ n ∧ n ≤ s.length :=
  fullStatementAux_bounds s 0 n h

/-- Modelled from the spec: `edgeql_parser::preparser::is_empty` — per the
spec's words, the permitted single trailing remainder must be
whitespace-only. -/
def is_empty (s : List Char) : Bool :=
  s.all (fun c => c.isWhitespace)

/-- The suffix of the input left over once every complete statement has
been consumed, mirroring the `offset += shift` loop of
`read_schema_file`. -/
def schemaRemainder (s : List Char) : List Char :=
  match h : fullStatement s with
  | some n => schemaRemainder (s.drop n)
  | none => s
termination_by s.length
decreasing_by
  have := fullStatement_bounds s n h
  simp only [List.length_drop]
  omega

/-- The `loop` of `read_schema_file`: retry `full_statement` until it
fails, then report whether the remainder is empty. -/
def readSchemaLoop (s : List Char) : Bool :=
  match h : fullStatement s with
  | some n => readSchemaLoop (s.drop n)
  | none => is_empty s
termination_by s.length
decreasing_by
  have := fullStatement_bounds s n h
  simp only [List.length_drop]
  omega

/-- `read_schema_file` from `create.rs`: consume complete statements; when
no further complete statement exists, succeed with the unaltered file
content if the remainder is empty, otherwise fail; the
`#[context("could not read schema file {path}")]` attribute prefixes the
error with the offending path. -/
def read_schema_file (path : String) (data : String) : Except String String :=
  if readSchemaLoop data.data then Except.ok data
  else Except.error ("could not read schema file " ++ path
    ++ ": final statement does not end with a semicolon")

/-! ### The creation orchestrator (`create` in `create.rs`)

`create` is modelled as a function from its inputs — the local on-disk
migration keys (`migration::read_all`, a filesystem read outside the
covered modules, enters as the key list parameter), the aggregated
start-migration text, the `--non-interactive` flag and the scripted server
behaviour — to the ordered trace of server commands it issues plus its
result. -/

/-- One server-visible action of the orchestrator. -/
inductive Effect where
  | executeSql (text : String)
  | queryTip
  | describe
  | writeFile (parent : String) (index : Nat) (confirmed : List String)
deriving DecidableEq, Repr

/-- The error outcomes of `create` (each an `anyhow` error in the code). -/
inductive CreateErr where
  | validation (msg : String)
  | userInput (e : InputRequired)
  | describeExhausted
  | abortError (msg : String)
deriving DecidableEq, Repr

/-- The exact `bail!` message of the history-mismatch branch of `create`
(the source misspells "miration"). -/
def notUpToDateMsg : String :=
  "Database must be updated to the last miration "
    ++ "on the filesystem for `create-migration`. Run:\n  "
    ++ "edgedb migrate"

/-- The `bail!` message of the unimplemented interactive branch. -/
def notImplementedMsg : String :=
  "interactive mode is not implemented yet, try:\n  "
    ++ "edgedb create-migration --non-interactive"

/-- Scripted server behaviour: the tip reported by the no-children query,
the successive `DESCRIBE CURRENT MIGRATION` results, and whether the
final `ABORT MIGRATION` fails (`some msg`) or succeeds (`none`). -/
structure Srv where
  tip : Option String
  rounds : List CurrentMigration
  abortErr : Option String
deriving DecidableEq, Repr

/-- The `loop` of `run_non_interactive`: describe; stop when `proposed` is
empty; otherwise run the proposals and re-describe.  Running out of
scripted rounds models a failing describe query. -/
def describeLoop : List CurrentMigration → List Effect × Except CreateErr CurrentMigration
  | [] => ([], Except.error CreateErr.describeExhausted)
  | data :: rest =>
    if data.proposed.isEmpty then ([Effect.describe], Except.ok data)
    else
      match runProposals data.proposed with
      | (texts, some e) =>
        (Effect.describe :: texts.map Effect.executeSql,
          Except.error (CreateErr.userInput e))
      | (texts, none) =>
        let (effs2, r) := describeLoop rest
        ((Effect.describe :: texts.map Effect.executeSql) ++ effs2, r)

/-- `run_non_interactive` from `create.rs`: the describe loop, then the
no-children tip query giving the parent (`"initial"` when absent), then
the migration file write. -/
def run_non_interactive (srv : Srv) (index : Nat) :
    List Effect × Except CreateErr Unit :=
  match describeLoop srv.rounds with
  | (effs, Except.error e) => (effs, Except.error e)
  | (effs, Except.ok descr) =>
    let parent := srv.tip.getD "initial"
    (effs ++ [Effect.queryTip, Effect.writeFile parent index descr.confirmed],
      Except.ok ())

/-- Rust `Result::and`: keep the first error, otherwise the second
result. -/
def resultAnd (a b : Except CreateErr Unit) : Except CreateErr Unit :=
  match a with
  | Except.error e => Except.error e
  | Except.ok _ => b

/-- `create` from `create.rs`: execute the aggregated start-migration
text, query the server tip, compare it against the LAST key of the local
on-disk history, bail on mismatch; otherwise run the non-interactive loop
(the interactive branch bails unimplemented, returning early), then issue
`ABORT MIGRATION`, and combine the two results with `Result::and`. -/
def create (localKeys : List String) (startText : String)
    (non_interactive : Bool) (srv : Srv) :
    List Effect × Except CreateErr Unit :=
  let pre := [Effect.executeSql startText, Effect.queryTip]
  if srv.tip ≠ localKeys.getLast? then
    (pre, Except.error (CreateErr.validation notUpToDateMsg))
  else if ¬ non_interactive then
    (pre, Except.error (CreateErr.validation notImplementedMsg))
  else
    let (effs, exec) := run_non_interactive srv (localKeys.length + 1)
    let abortRes : Except CreateErr Unit :=
      match srv.abortErr with
      | none => Except.ok ()
      | some m => Except.error (CreateErr.abortError m)
    (pre ++ effs ++ [Effect.executeSql "ABORT MIGRATION"], resultAnd exec abortRes)

/-- A scripted server on which both the describe/apply loop and the abort
fail: the single round proposes, at confidence 1, one statement that
requires user input, and `ABORT MIGRATION` fails with its own error. -/
def srvBothFail : Srv :=
  ⟨none, [⟨[], [⟨[⟨"stmt", [⟨"n", "p"⟩]⟩], 1, none⟩]⟩], some "abort failed"⟩

/-- A scripted server whose tip disagrees with the local history tip. -/
def srvWrongTip : Srv :=
  ⟨some "m2", [], none⟩

/-! ### Theorems -/

theorem SAFE_CONFIDENCE_eq : SAFE_CONFIDENCE = 0.99999 := by
  norm_num [SAFE_CONFIDENCE]

theorem indexInsert_keys (m : List (String × DBMigration)) (k : String)
    (v : DBMigration) :
    (indexInsert m k v).map Prod.fst =
      if k ∈ m.map Prod.fst then m.map Prod.fst else m.map Prod.fst ++ [k] := by
  induction m with
  | nil => simp [indexInsert]
  | cons e rest ih =>
    obtain ⟨k', v'⟩ := e
    by_cases hk : k' = k
    · subst hk
      simp [indexInsert]
    · simp [indexInsert, hk, ih, Ne.symm hk]
      by_cases hmem : k ∈ rest.map Prod.fst <;> simp [hmem, Ne.symm hk]

theorem indexInsert_nodup (m : List (String × DBMigration)) (k : String)
    (v : DBMigration) (h : (m.map Prod.fst).Nodup) :
    ((indexInsert m k v).map Prod.fst).Nodup := by
  rw [indexInsert_keys]
  by_cases hmem : k ∈ m.map Prod.fst
  · simpa [hmem] using h
  · simp only [hmem, if_false]
    simp [List.nodup_append, h, hmem]

theorem indexInsert_mem (m : List (String × DBMigration)) (k : String)
    (v : DBMigration) (pr : String × DBMigration)
    (h : pr ∈ indexInsert m k v) : pr ∈ m ∨ pr = (k, v) := by
  induction m with
  | nil => simpa [indexInsert] using h
  | cons e rest ih =>
    obtain ⟨k', v'⟩ := e
    by_cases hk : k' = k
    · subst hk
      simp [indexInsert] at h
      rcases h with h | h
      · right; simp [h]
      · left; simp [h]
    · simp [indexInsert, hk] at h
      rcases h with h | h
      · left; simp [h]
      · rcases ih h with h' | h'
        · left; simp [h']
        · right; exact h'

theorem alistRemove_mem (m : List (String × List DBMigration)) (k : String)
    (cs : List DBMigration) (m' : List (String × List DBMigration))
    (h : alistRemove m k = some (cs, m')) :
    (k, cs) ∈ m ∧ ∀ e ∈ m', e ∈ m := by
  induction m generalizing m' with
  | nil => simp [alistRemove] at h
  | cons e rest ih =>
    obtain ⟨k', cs'⟩ := e
    by_cases hk : k' = k
    · subst hk
      simp [alistRemove] at h
      obtain ⟨h1, h2⟩ := h
      subst h1; subst h2
      constructor
      · exact List.mem_cons_self _ _
      · intro e he; exact List.mem_cons_of_mem _ he
    · simp [alistRemove, hk] at h
      cases hrec : alistRemove rest k with
      | none => rw [hrec] at h; simp at h
      | some val =>
        obtain ⟨cs2, rest2⟩ := val
        rw [hrec] at h
        simp at h
        obtain ⟨h1, h2⟩ := h
        subst h1
        obtain ⟨hin, hsub⟩ := ih rest2 hrec
        constructor
        · exact List.mem_cons_of_mem _ hin
        · intro e he
          rw [← h2] at he
          rcases List.mem_cons.mp he with h' | h'
          · subst h'; exact List.mem_cons_self _ _
          · exact List.mem_cons_of_mem _ (hsub e h')

theorem alistAdd_inv (Q : String → DBMigration → Prop)
    (m : List (String × List DBMigration)) (p : String) (c0 : DBMigration)
    (hm : ∀ e ∈ m, ∀ c ∈ e.2, Q e.1 c) (hq : Q p c0) :
    ∀ e ∈ alistAdd m p c0, ∀ c ∈ e.2, Q e.1 c := by
  induction m with
  | nil =>
    intro e he c hc
    simp [alistAdd] at he
    subst he
    simp at hc
    subst hc
    exact hq
  | cons e0 rest ih =>
    obtain ⟨k, cs⟩ := e0
    by_cases hk : k = p
    · subst hk
      intro e he c hc
      simp [alistAdd] at he
      rcases he with he | he
      · subst he
        simp at hc
        rcases hc with hc | hc
        · exact hm (k, cs) (by simp) c hc
        · subst hc; exact hq
      · exact hm e (by simp [he]) c hc
    · intro e he c hc
      simp [alistAdd, hk] at he
      rcases he with he | he
      · subst he
        exact hm (k, cs) (by simp) c hc
      · exact ih (fun e' he' c' hc' => hm e' (by simp [he']) c' hc') e he c hc

theorem foldParents_inv (ms : List DBMigration) (item : DBMigration)
    (hitem : item ∈ ms) :
    ∀ (ps : List String) (m : List (String × List DBMigration)),
    (∀ p ∈ ps, p ∈ item.parent_names) →
    (∀ e ∈ m, ∀ c ∈ e.2, c ∈ ms ∧ e.1 ∈ c.parent_names) →
    ∀ e ∈ ps.foldl (fun m p => alistAdd m p item) m, ∀ c ∈ e.2,
      c ∈ ms ∧ e.1 ∈ c.parent_names := by
  intro ps
  induction ps with
  | nil => intro m _ hm; simpa using hm
  | cons p rest ih =>
    intro m hps hm
    simp only [List.foldl_cons]
    apply ih
    · intro p' hp'; exact hps p' (by simp [hp'])
    · exact alistAdd_inv (fun q c => c ∈ ms ∧ q ∈ c.parent_names) m p item hm
        ⟨hitem, hps p (by simp)⟩

theorem buildByParent_inv (ms : List DBMigration) :
    ∀ e ∈ buildByParent ms, ∀ c ∈ e.2, c ∈ ms ∧ e.1 ∈ c.parent_names := by
  unfold buildByParent
  suffices h : ∀ (l : List DBMigration) (m : List (String × List DBMigration)),
      (∀ x ∈ l, x ∈ ms) →
      (∀ e ∈ m, ∀ c ∈ e.2, c ∈ ms ∧ e.1 ∈ c.parent_names) →
      ∀ e ∈ l.foldl
        (fun m item => item.parent_names.foldl (fun m p => alistAdd m p item) m) m,
        ∀ c ∈ e.2, c ∈ ms ∧ e.1 ∈ c.parent_names by
    exact h ms [] (fun x hx => hx) (by simp)
  intro l
  induction l with
  | nil => intro m _ hm; simpa using hm
  | cons item rest ih =>
    intro m hl hm
    simp only [List.foldl_cons]
    apply ih
    · intro x hx; exact hl x (by simp [hx])
    · exact foldParents_inv ms item (hl item (by simp)) item.parent_names m
        (fun p hp => hp) hm

theorem linearizeLoop_inv (ms : List DBMigration)
    (byParent : List (String × List DBMigration))
    (output : List (String × DBMigration)) (visited : List String)
    (queue : List DBMigration) :
    (∀ e ∈ byParent, ∀ c ∈ e.2, c ∈ ms ∧ e.1 ∈ c.parent_names) →
    (∀ r ∈ queue, Reachable ms r) →
    (∀ pr ∈ output, pr.1 = pr.2.name ∧ Reachable ms pr.2) →
    (output.map Prod.fst).Nodup →
    (∀ pr ∈ linearizeLoop byParent output visited queue,
      pr.1 = pr.2.name ∧ Reachable ms pr.2) ∧
    ((linearizeLoop byParent output visited queue).map Prod.fst).Nodup := by
  induction byParent, output, visited, queue using linearizeLoop.induct with
  | case1 byParent output visited =>
    intro _ _ hout hnd
    rw [linearizeLoop]
    exact ⟨hout, hnd⟩
  | case2 byParent output visited item rest output' visited' hnone ih =>
    intro hbp hq hout hnd
    rw [linearizeLoop, hnone]
    apply ih hbp
    · intro r hr; exact hq r (by simp [hr])
    · intro pr hpr
      rcases indexInsert_mem output item.name item pr hpr with h' | h'
      · exact hout pr h'
      · subst h'
        exact ⟨rfl, hq item (by simp)⟩
    · exact indexInsert_nodup output item.name item hnd
  | case3 byParent output visited item rest output' visited' children byParent' hsome toPush ih =>
    intro hbp hq hout hnd
    rw [linearizeLoop, hsome]
    obtain ⟨hentry, hsub⟩ := alistRemove_mem byParent item.name children byParent' hsome
    apply ih
    · intro e he; exact hbp e (hsub e he)
    · intro r hr
      rcases List.mem_append.mp hr with h' | h'
      · have hch : r ∈ children := List.mem_of_mem_filter (List.mem_reverse.mp h')
        obtain ⟨hrm, hrp⟩ := hbp (item.name, children) hentry r hch
        exact Reachable.child item r (hq item (by simp)) hrm hrp
      · exact hq r (by simp [h'])
    · intro pr hpr
      rcases indexInsert_mem output item.name item pr hpr with h' | h'
      · exact hout pr h'
      · subst h'
        exact ⟨rfl, hq item (by simp)⟩
    · exact indexInsert_nodup output item.name item hnd

/-- C9: for every finite input list, `linearize_db_migrations` is a total
function (it is defined by well-founded recursion on
`byParentMeasure + queue length`, hence terminates) with no failure path;
each record appears at most once in the output, keyed by its own name
(the key list is duplicate-free), and every emitted record is reachable
from a root — records not reachable from any root, and parent names absent
from the input set, are silently ignored rather than being errors. -/
theorem linearize_db_migrations_safe (ms : List DBMigration) :
    ((linearize_db_migrations ms).map Prod.fst).Nodup ∧
    ∀ pr ∈ linearize_db_migrations ms,
      pr.1 = pr.2.name ∧ Reachable ms pr.2 := by
  have h := linearizeLoop_inv ms (buildByParent ms) [] []
    ((ms.filter (fun item => item.parent_names.isEmpty)).reverse)
    (buildByParent_inv ms)
    (by
      intro r hr
      have hr' := List.mem_reverse.mp hr
      have hm := List.mem_of_mem_filter hr'
      have hroot := List.of_mem_filter hr'
      simp at hroot
      exact Reachable.root r hm hroot)
    (by simp) (by simp)
  exact ⟨h.2, h.1⟩

/-- C1 counterexample: on the input
`[{A, parents: []}, {B, parents: [A]}, {C, parents: [A]}, {D, parents: [B, C]}]`
the linearizer emits the exact key sequence `A, C, D, B`; in particular `D`
is emitted BEFORE `B`, so the claim that the output places `D` after both
`B` and `C` is false on this input. -/
theorem linearize_abcd_d_before_b :
    (linearize_db_migrations exampleABCD).map Prod.fst = ["A", "C", "D", "B"] ∧
    ¬ ((((linearize_db_migrations exampleABCD).map Prod.fst).indexOf "B" <
        (((linearize_db_migrations exampleABCD).map Prod.fst)).indexOf "D")) := by
  have h : (linearize_db_migrations exampleABCD).map Prod.fst
      = ["A", "C", "D", "B"] := by
    simp [linearize_db_migrations, buildByParent, linearizeLoop, exampleABCD,
      alistRemove, alistAdd, indexInsert, recA, recB, recC, recD]
  refine ⟨h, ?_⟩
  rw [h]
  decide

/-- C1 (amended): for the input record list
`[{A, parents: []}, {B, parents: [A]}, {C, parents: [A]}, {D, parents: [B, C]}]`
the output is the exact, fully determined key sequence `A, C, D, B`
(stack/depth-first tie-break, most-recently-discovered child first): `A` is
first and `D` comes after its parent `C` but BEFORE its parent `B`. -/
theorem linearize_abcd_exact_sequence :
    (linearize_db_migrations exampleABCD).map Prod.fst = ["A", "C", "D", "B"] ∧
    ((linearize_db_migrations exampleABCD).map Prod.fst).head? = some "A" ∧
    (((linearize_db_migrations exampleABCD).map Prod.fst).indexOf "C" <
      ((linearize_db_migrations exampleABCD).map Prod.fst).indexOf "D") := by
  have h : (linearize_db_migrations exampleABCD).map Prod.fst
      = ["A", "C", "D", "B"] := by
    simp [linearize_db_migrations, buildByParent, linearizeLoop, exampleABCD,
      alistRemove, alistAdd, indexInsert, recA, recB, recC, recD]
  rw [h]
  exact ⟨rfl, rfl, by decide⟩

theorem runStatements_eq (ss : List StatementProposal) :
    runStatements ss = statementSpec ss := by
  induction ss with
  | nil => rfl
  | cons s rest ih =>
    by_cases hs : s.required_user_input.isEmpty
    · simp [runStatements, hs, statementSpec, List.takeWhile_cons, List.dropWhile_cons,
        ih]
    · simp [runStatements, hs, statementSpec, List.takeWhile_cons, List.dropWhile_cons]

theorem statementSpec_cons_pos (s : StatementProposal) (ss : List StatementProposal)
    (hs : s.required_user_input.isEmpty) :
    statementSpec (s :: ss)
      = (s.text :: (statementSpec ss).1, (statementSpec ss).2) := by
  simp [statementSpec, List.takeWhile_cons, List.dropWhile_cons, hs]

theorem statementSpec_cons_neg (s : StatementProposal) (ss : List StatementProposal)
    (hs : ¬ s.required_user_input.isEmpty) :
    statementSpec (s :: ss)
      = ([], some ⟨s.text, s.required_user_input.map (fun i => i.prompt)⟩) := by
  simp [statementSpec, List.takeWhile_cons, List.dropWhile_cons, hs]

theorem combineRun_none (t : List String) (b : List String × Option InputRequired) :
    combineRun (t, none) b = (t ++ b.1, b.2) := by
  rcases b with ⟨t2, e2⟩
  rfl

theorem combineRun_some (t : List String) (e : InputRequired)
    (b : List String × Option InputRequired) :
    combineRun (t, some e) b = (t, some e) := by
  rcases b with ⟨t2, e2⟩
  rfl

theorem statementSpec_append (l1 l2 : List StatementProposal) :
    statementSpec (l1 ++ l2) = combineRun (statementSpec l1) (statementSpec l2) := by
  induction l1 with
  | nil =>
    have h : statementSpec ([] : List StatementProposal) = ([], none) := rfl
    rw [List.nil_append, h, combineRun_none]
    simp
  | cons s rest ih =>
    by_cases hs : s.required_user_input.isEmpty
    · rw [List.cons_append, statementSpec_cons_pos s (rest ++ l2) hs, ih,
        statementSpec_cons_pos s rest hs]
      rcases hrest : statementSpec rest with ⟨t, e⟩
      cases e with
      | none => simp [combineRun_none]
      | some err => simp [combineRun_some]
    · rw [List.cons_append, statementSpec_cons_neg s (rest ++ l2) hs,
        statementSpec_cons_neg s rest hs, combineRun_some]

/-- C3: one round of the non-interactive describe loop in
`run_non_interactive` agrees with the specification: the statements
executed against the server are exactly the statements of the proposals
whose `confidence` is at or above `SAFE_CONFIDENCE` (= 0.99999), in order,
up to the first statement with a non-empty `required_user_input`; at such
a statement the loop fails immediately, reporting that statement's text
and every required input's prompt text; proposals below the threshold have
none of their statements executed. -/
theorem runProposals_spec (ps : List Proposal) :
    runProposals ps = specRunProposals ps := by
  induction ps with
  | nil => rfl
  | cons p rest ih =>
    by_cases hc : SAFE_CONFIDENCE ≤ p.confidence
    · have hfil : specHighConfStatements (p :: rest)
          = p.statements ++ specHighConfStatements rest := by
        simp [specHighConfStatements, List.filter_cons, hc]
      rw [runProposals]
      simp only [hc, if_true, reduceIte]
      rw [runStatements_eq]
      unfold specRunProposals
      rw [hfil, statementSpec_append]
      cases h1 : statementSpec p.statements with
      | mk t e =>
        cases e with
        | none => simp [combineRun, ih, specRunProposals]
        | some err => simp [combineRun]
    · have hfil : specHighConfStatements (p :: rest)
          = specHighConfStatements rest := by
        simp [specHighConfStatements, List.filter_cons, hc]
      rw [runProposals]
      simp only [hc, if_false, reduceIte]
      rw [ih]
      unfold specRunProposals
      rw [hfil]

theorem tmpFile_ne (p : FPath) : tmpFile p ≠ p := by
  intro h
  have h1 : (".~" ++ p.fname ++ ".tmp").length = p.fname.length :=
    congrArg (fun q => q.fname.length) h
  rw [String.length_append, String.length_append] at h1
  have h2 : (".~" : String).length = 2 := rfl
  have h3 : (".tmp" : String).length = 4 := rfl
  omega

theorem find_key_filter_ne (l : List (FPath × String)) (p q : FPath)
    (h : q ≠ p) :
    (l.filter (fun e => ¬ (e.1 = p))).find? (fun e => e.1 = q)
      = l.find? (fun e => e.1 = q) := by
  induction l with
  | nil => rfl
  | cons e rest ih =>
    by_cases hp : e.1 = p
    · have hq : ¬ (e.1 = q) := by
        intro hq
        apply h
        rw [← hq, hp]
      rw [List.filter_cons, if_neg (by simp [hp])]
      rw [List.find?_cons_of_neg _ (by simp [hq])]
      exact ih
    · rw [List.filter_cons, if_pos (by simp [hp])]
      by_cases hq : e.1 = q
      · rw [List.find?_cons_of_pos _ (by simp [hq]),
          List.find?_cons_of_pos _ (by simp [hq])]
      · rw [List.find?_cons_of_neg _ (by simp [hq]),
          List.find?_cons_of_neg _ (by simp [hq])]
        exact ih

theorem lookupFile_setFile_self (fs : FS) (p : FPath) (c : String) :
    lookupFile (setFile fs p c) p = some c := by
  simp only [lookupFile, setFile]
  rw [List.find?_cons_of_pos _ (by simp)]
  rfl

theorem lookupFile_setFile_ne (fs : FS) (p q : FPath) (c : String)
    (h : q ≠ p) :
    lookupFile (setFile fs p c) q = lookupFile fs q := by
  simp only [lookupFile, setFile]
  rw [List.find?_cons_of_neg _ (by simpa using Ne.symm h)]
  rw [find_key_filter_ne fs.files p q h]

theorem lookupFile_eraseFile_ne (fs : FS) (p q : FPath) (h : q ≠ p) :
    lookupFile (eraseFile fs p) q = lookupFile fs q := by
  simp only [lookupFile, eraseFile]
  rw [find_key_filter_ne fs.files p q h]

/-- Any operation that targets only the temp path (or only directories)
leaves the final path's content untouched. -/
theorem applyOp_preserves (fs : FS) (p : FPath) (op : FsOp)
    (hop : (∃ d, op = FsOp.createDirAll d) ∨
      (∃ s, op = FsOp.appendFile (tmpFile p) s) ∨
      op = FsOp.removeFileQuiet (tmpFile p) ∨
      op = FsOp.createFile (tmpFile p) ∨
      op = FsOp.flushFile (tmpFile p)) :
    lookupFile (applyOp fs op) p = lookupFile fs p := by
  have hne : p ≠ tmpFile p := fun h => tmpFile_ne p h.symm
  rcases hop with ⟨d, rfl⟩ | ⟨s, rfl⟩ | rfl | rfl | rfl
  · rfl
  · simp only [applyOp]
    cases h : lookupFile fs (tmpFile p) with
    | none => rfl
    | some c => exact lookupFile_setFile_ne fs (tmpFile p) p _ hne
  · exact lookupFile_eraseFile_ne fs (tmpFile p) p hne
  · exact lookupFile_setFile_ne fs (tmpFile p) p _ hne
  · rfl

theorem applyOps_preserves (p : FPath) (l : List FsOp)
    (h : ∀ op ∈ l, ∀ fs' : FS, lookupFile (applyOp fs' op) p = lookupFile fs' p) :
    ∀ fs : FS, lookupFile (applyOps fs l) p = lookupFile fs p := by
  induction l with
  | nil => intro fs; rfl
  | cons op rest ih =>
    intro fs
    simp only [applyOps, List.foldl_cons]
    rw [show List.foldl applyOp (applyOp fs op) rest = applyOps (applyOp fs op) rest from rfl]
    rw [ih (fun o ho fs' => h o (by simp [ho]) fs'), h op (by simp)]

theorem writeMigrationPre_mem (fs : FS) (descr : CurrentMigration)
    (parent : String) (filepath : FPath) (op : FsOp)
    (hop : op ∈ writeMigrationPre fs descr parent filepath) :
    op = FsOp.createDirAll filepath.dir ∨
    op = FsOp.removeFileQuiet (tmpFile filepath) ∨
    op = FsOp.createFile (tmpFile filepath) ∨
    (∃ s, op = FsOp.appendFile (tmpFile filepath) s) ∨
    op = FsOp.flushFile (tmpFile filepath) := by
  by_cases hex : (lookupFile fs filepath).isSome
  · simp only [writeMigrationPre, hex, if_true, List.nil_append, List.mem_append,
      List.mem_cons, List.mem_singleton, List.mem_map, List.not_mem_nil] at hop
    rcases hop with ((hop | hop | hop) | ⟨s, -, hs⟩) | (hop | hop)
    · exact Or.inr (Or.inl hop)
    · exact Or.inr (Or.inr (Or.inl hop))
    · exact hop.elim
    · exact Or.inr (Or.inr (Or.inr (Or.inl ⟨s, hs.symm⟩)))
    · exact Or.inr (Or.inr (Or.inr (Or.inr hop)))
    · exact hop.elim
  · have hite : (if (lookupFile fs filepath).isSome then ([] : List FsOp)
        else [FsOp.createDirAll filepath.dir]) = [FsOp.createDirAll filepath.dir] := by
      simp [hex]
    simp only [writeMigrationPre, hite, List.mem_append, List.mem_cons,
      List.mem_singleton, List.mem_map, List.not_mem_nil] at hop
    rcases hop with (((hop | hop) | hop | hop | hop) | ⟨s, -, hs⟩) | (hop | hop)
    · exact Or.inl hop
    · exact hop.elim
    · exact Or.inr (Or.inl hop)
    · exact Or.inr (Or.inr (Or.inl hop))
    · exact hop.elim
    · exact Or.inr (Or.inr (Or.inr (Or.inl ⟨s, hs.symm⟩)))
    · exact Or.inr (Or.inr (Or.inr (Or.inr hop)))
    · exact hop.elim

theorem writeMigrationPre_preserves (fs : FS) (descr : CurrentMigration)
    (parent : String) (filepath : FPath) :
    ∀ op ∈ writeMigrationPre fs descr parent filepath, ∀ fs' : FS,
      lookupFile (applyOp fs' op) filepath = lookupFile fs' filepath := by
  intro op hop fs'
  apply applyOp_preserves
  rcases writeMigrationPre_mem fs descr parent filepath op hop with
    hop | hop | hop | ⟨s, hs⟩ | hop
  · exact Or.inl ⟨filepath.dir, hop⟩
  · exact Or.inr (Or.inr (Or.inl hop))
  · exact Or.inr (Or.inr (Or.inr (Or.inl hop)))
  · exact Or.inr (Or.inl ⟨s, hs⟩)
  · exact Or.inr (Or.inr (Or.inr (Or.inr hop)))

/-- C4: `_write_migration` first (conditionally) creates the destination
directory — recursively, and only when the final target file does not yet
exist — then removes any stale temp file, writes the complete new content
to the sibling temp path `.~{name}.tmp`, flushes, and only then renames
that temp path onto the final path, which is the very last operation of
the sequence; consequently a failure after any strict prefix of the
operation sequence (any point before the rename) leaves the final path's
content exactly as it was: absent if it was absent, the previous complete
content otherwise, never truncated or partial. -/
theorem _write_migration_crash_safe (fs : FS) (descr : CurrentMigration)
    (parent : String) (filepath : FPath) (k : Nat)
    (hk : k < (writeMigrationOps fs descr parent filepath).length) :
    lookupFile (applyOps fs ((writeMigrationOps fs descr parent filepath).take k))
        filepath = lookupFile fs filepath ∧
    ((FsOp.createDirAll filepath.dir ∈ writeMigrationOps fs descr parent filepath)
      ↔ lookupFile fs filepath = none) ∧
    (writeMigrationOps fs descr parent filepath).getLast?
      = some (FsOp.renameFile (tmpFile filepath) filepath) := by
  refine ⟨?_, ?_, ?_⟩
  · have hlen : (writeMigrationOps fs descr parent filepath).length
        = (writeMigrationPre fs descr parent filepath).length + 1 := by
      simp [writeMigrationOps]
    have hk' : k ≤ (writeMigrationPre fs descr parent filepath).length := by omega
    have htake : (writeMigrationOps fs descr parent filepath).take k
        = (writeMigrationPre fs descr parent filepath).take k := by
      simp only [writeMigrationOps]
      exact List.take_append_of_le_length hk'
    rw [htake]
    apply applyOps_preserves filepath
    intro op hop fs'
    exact writeMigrationPre_preserves fs descr parent filepath op
      (List.mem_of_mem_take hop) fs'
  · constructor
    · intro hmem
      by_contra hne
      have hsome : (lookupFile fs filepath).isSome := by
        cases h : lookupFile fs filepath with
        | none => exact absurd h hne
        | some c => rfl
      simp [writeMigrationOps, writeMigrationPre, hsome] at hmem
    · intro hnone
      simp [writeMigrationOps, writeMigrationPre, hnone]
  · simp [writeMigrationOps]

/-- Witness for `_write_migration_crash_safe`: a crash right after the
temp file was created (prefix of length 3) leaves an existing final file
with its previous content. -/
theorem _write_migration_crash_safe_witness :
    (3 < (writeMigrationOps
        ⟨[(⟨"migrations", "00001.edgeql"⟩, "old content")], ["migrations"]⟩
        ⟨["CREATE TYPE X"], []⟩ "initial" ⟨"migrations", "00001.edgeql"⟩).length) ∧
    (lookupFile (applyOps
        ⟨[(⟨"migrations", "00001.edgeql"⟩, "old content")], ["migrations"]⟩
        ((writeMigrationOps
          ⟨[(⟨"migrations", "00001.edgeql"⟩, "old content")], ["migrations"]⟩
          ⟨["CREATE TYPE X"], []⟩ "initial" ⟨"migrations", "00001.edgeql"⟩).take 3))
        ⟨"migrations", "00001.edgeql"⟩
      = lookupFile ⟨[(⟨"migrations", "00001.edgeql"⟩, "old content")], ["migrations"]⟩
        ⟨"migrations", "00001.edgeql"⟩) ∧
    ((FsOp.createDirAll "migrations" ∈ writeMigrationOps
        ⟨[(⟨"migrations", "00001.edgeql"⟩, "old content")], ["migrations"]⟩
        ⟨["CREATE TYPE X"], []⟩ "initial" ⟨"migrations", "00001.edgeql"⟩)
      ↔ lookupFile ⟨[(⟨"migrations", "00001.edgeql"⟩, "old content")], ["migrations"]⟩
        ⟨"migrations", "00001.edgeql"⟩ = none) ∧
    (writeMigrationOps
        ⟨[(⟨"migrations", "00001.edgeql"⟩, "old content")], ["migrations"]⟩
        ⟨["CREATE TYPE X"], []⟩ "initial" ⟨"migrations", "00001.edgeql"⟩).getLast?
      = some (FsOp.renameFile (tmpFile ⟨"migrations", "00001.edgeql"⟩)
          ⟨"migrations", "00001.edgeql"⟩) :=
  ⟨by decide,
   _write_migration_crash_safe
     ⟨[(⟨"migrations", "00001.edgeql"⟩, "old content")], ["migrations"]⟩
     ⟨["CREATE TYPE X"], []⟩ "initial" ⟨"migrations", "00001.edgeql"⟩ 3 (by decide)⟩

theorem hasher_foldl_source (l : List String) (h : Hasher) :
    l.foldl Hasher.source h = ⟨h.parent, h.sources ++ l⟩ := by
  induction l generalizing h with
  | nil => simp
  | cons s rest ih =>
    simp only [List.foldl_cons, ih, Hasher.source]
    simp

theorem concatAll_foldl (ws : List String) (a : String) :
    ws.foldl (fun a s => a ++ s) a = a ++ concatAll ws := by
  induction ws generalizing a with
  | nil => simp [concatAll]
  | cons w rest ih =>
    simp only [List.foldl_cons, concatAll]
    rw [ih (a ++ w), ih ("" ++ w)]
    simp [String.append_assoc]

theorem concatAll_cons (w : String) (ws : List String) :
    concatAll (w :: ws) = w ++ concatAll ws := by
  simp only [concatAll, List.foldl_cons]
  rw [concatAll_foldl]
  simp [concatAll]

theorem applyOps_appendFile (q : FPath) (ws : List String) :
    ∀ (fs : FS) (c : String), lookupFile fs q = some c →
    lookupFile (applyOps fs (ws.map (FsOp.appendFile q))) q
      = some (c ++ concatAll ws) := by
  induction ws with
  | nil => intro fs c h; simpa [applyOps, concatAll] using h
  | cons w rest ih =>
    intro fs c h
    simp only [List.map_cons, applyOps, List.foldl_cons]
    have hstep : applyOp fs (FsOp.appendFile q w) = setFile fs q (c ++ w) := by
      simp [applyOp, h]
    rw [hstep]
    have := ih (setFile fs q (c ++ w)) (c ++ w) (lookupFile_setFile_self fs q (c ++ w))
    simp only [applyOps] at this
    rw [this, concatAll_cons]
    simp [String.append_assoc]

/-- C10: the writer appends a semicolon to every confirmed statement
before hashing; the `Hasher` is fed exactly those semicolon-suffixed texts
in confirmed order (the fold over the statements equals the hasher state
`⟨parent, confirmed.map (· ++ \";\")⟩`), the header id is `make_id` of
that state, the body lines written are the lines of the very same
semicolon-suffixed texts each under a 2-space indent, and running the full
operation sequence lands exactly this content on the final path. -/
theorem _write_migration_id_from_suffixed_statements (fs : FS)
    (descr : CurrentMigration) (parent : String) (filepath : FPath) :
    ((descr.confirmed.map (fun s => s ++ ";")).foldl Hasher.source (Hasher.new parent))
        = ⟨parent, descr.confirmed.map (fun s => s ++ ";")⟩ ∧
    contentWrites descr parent
      = ["CREATE MIGRATION "
            ++ (Hasher.make_id ⟨parent, descr.confirmed.map (fun s => s ++ ";")⟩)
            ++ "\n",
          "    ONTO " ++ parent ++ "\n", "\x7b\n"]
        ++ (descr.confirmed.map (fun s => s ++ ";")).flatMap
            (fun st => (rustLines st).map (fun l => "  " ++ l ++ "\n"))
        ++ ["\x7d;\n"] ∧
    lookupFile (applyOps fs (writeMigrationOps fs descr parent filepath)) filepath
      = some (concatAll (contentWrites descr parent)) := by
  have hfold := hasher_foldl_source (descr.confirmed.map (fun s => s ++ ";"))
    (Hasher.new parent)
  simp only [Hasher.new, List.nil_append] at hfold
  refine ⟨hfold, ?_, ?_⟩
  · simp only [contentWrites]
    rw [show Hasher.new parent = (⟨parent, ([] : List String)⟩ : Hasher) from rfl, hfold]
  · have hne : filepath ≠ tmpFile filepath := fun h => tmpFile_ne filepath h.symm
    simp only [writeMigrationOps, writeMigrationPre, applyOps, List.foldl_append,
      List.foldl_cons, List.foldl_nil]
    set fs0 : FS := (if (lookupFile fs filepath).isSome then ([] : List FsOp)
        else [FsOp.createDirAll filepath.dir]).foldl applyOp fs with hfs0
    have hcreate : lookupFile (applyOp (applyOp fs0
        (FsOp.removeFileQuiet (tmpFile filepath))) (FsOp.createFile (tmpFile filepath)))
        (tmpFile filepath) = some "" := by
      exact lookupFile_setFile_self _ (tmpFile filepath) ""
    have happ := applyOps_appendFile (tmpFile filepath) (contentWrites descr parent)
      (applyOp (applyOp fs0 (FsOp.removeFileQuiet (tmpFile filepath)))
        (FsOp.createFile (tmpFile filepath))) "" hcreate
    simp only [applyOps] at happ
    set fs1 := ((contentWrites descr parent).map (FsOp.appendFile (tmpFile filepath))).foldl
      applyOp (applyOp (applyOp fs0 (FsOp.removeFileQuiet (tmpFile filepath)))
        (FsOp.createFile (tmpFile filepath))) with hfs1
    have hflush : applyOp fs1 (FsOp.flushFile (tmpFile filepath)) = fs1 := rfl
    rw [hflush]
    have hlook : lookupFile fs1 (tmpFile filepath)
        = some (concatAll (contentWrites descr parent)) := by
      rw [hfs1, happ]
      simp
    simp only [applyOp, hlook]
    exact lookupFile_setFile_self _ filepath _

theorem readSchemaLoop_eq_remainder (s : List Char) :
    readSchemaLoop s = is_empty (schemaRemainder s) := by
  induction s using readSchemaLoop.induct with
  | case1 s n h ih =>
    rw [readSchemaLoop, schemaRemainder]
    split
    · next n1 h1 =>
      rw [h] at h1
      obtain rfl : n = n1 := Option.some.inj h1
      exact ih
    · next h1 =>
      rw [h] at h1
  | case2 s h =>
    rw [readSchemaLoop, schemaRemainder]
    split
    · next n1 h1 =>
      rw [h] at h1
      exact absurd h1 (by simp)
    · next h1 => rfl

/-- C7: `read_schema_file` consumes complete semicolon-terminated
top-level statements until none remains; it succeeds — returning the
file's content unaltered — exactly when the single trailing remainder is
whitespace-only, and otherwise fails with an error that names the
offending file path (through the `#[context]` wrapper). -/
theorem read_schema_file_spec (path : String) (data : String) :
    read_schema_file path data
      = if is_empty (schemaRemainder data.data) then Except.ok data
        else Except.error ("could not read schema file " ++ path
          ++ ": final statement does not end with a semicolon") := by
  rw [read_schema_file, readSchemaLoop_eq_remainder]

theorem create_mismatch_eq (lk : List String) (st : String) (ni : Bool)
    (srv : Srv) (h : srv.tip ≠ lk.getLast?) :
    create lk st ni srv
      = ([Effect.executeSql st, Effect.queryTip],
          Except.error (CreateErr.validation notUpToDateMsg)) := by
  simp [create, h]

theorem create_match_eq (lk : List String) (st : String) (srv : Srv)
    (h : srv.tip = lk.getLast?) :
    create lk st true srv
      = ([Effect.executeSql st, Effect.queryTip]
            ++ (run_non_interactive srv (lk.length + 1)).1
            ++ [Effect.executeSql "ABORT MIGRATION"],
         resultAnd (run_non_interactive srv (lk.length + 1)).2
           (match srv.abortErr with
            | none => Except.ok ()
            | some m => Except.error (CreateErr.abortError m))) := by
  simp only [create]
  rw [if_neg (by simp [h])]
  rw [if_neg (by simp)]

/-- C5: when the server's applied-history tip differs from the last
identifier of the local on-disk history, `create` fails with the
validation error whose message instructs the user to run `edgedb migrate`
(the update/apply command), and no migration file write is issued. -/
theorem create_history_mismatch_no_write (lk : List String) (st : String)
    (ni : Bool) (srv : Srv) (h : srv.tip ≠ lk.getLast?) :
    (create lk st ni srv).2 = Except.error (CreateErr.validation notUpToDateMsg) ∧
    notUpToDateMsg
      = "Database must be updated to the last miration on the filesystem "
        ++ "for `create-migration`. Run:\n  " ++ "edgedb migrate" ∧
    ∀ p i c, Effect.writeFile p i c ∉ (create lk st ni srv).1 := by
  rw [create_mismatch_eq lk st ni srv h]
  refine ⟨rfl, rfl, ?_⟩
  intro p i c
  simp

/-- Witness for `create_history_mismatch_no_write`: local tip "m1" against
server tip "m2". -/
theorem create_history_mismatch_no_write_witness :
    (srvWrongTip.tip ≠ (["m1"] : List String).getLast?) ∧
    ((create ["m1"] "START MIGRATION TO SCHEMA" true srvWrongTip).2
        = Except.error (CreateErr.validation notUpToDateMsg) ∧
      notUpToDateMsg
        = "Database must be updated to the last miration on the filesystem "
          ++ "for `create-migration`. Run:\n  " ++ "edgedb migrate" ∧
      ∀ p i c, Effect.writeFile p i c
        ∉ (create ["m1"] "START MIGRATION TO SCHEMA" true srvWrongTip).1) :=
  ⟨by decide,
   create_history_mismatch_no_write ["m1"] "START MIGRATION TO SCHEMA" true
     srvWrongTip (by decide)⟩

/-- C6 counterexample: with local tip "m1" and server tip "m2" the
start-migration command IS executed (it is the very first effect) even
though history validation fails, so the claim that the start command is
issued only after validation succeeds — and that on mismatch nothing is
proposed to the server — is false: the code validates only after
starting. -/
theorem create_start_issued_despite_mismatch :
    (create ["m1"] "START MIGRATION TO SCHEMA" true srvWrongTip).1
      = [Effect.executeSql "START MIGRATION TO SCHEMA", Effect.queryTip] ∧
    Effect.executeSql "START MIGRATION TO SCHEMA"
      ∈ (create ["m1"] "START MIGRATION TO SCHEMA" true srvWrongTip).1 ∧
    (create ["m1"] "START MIGRATION TO SCHEMA" true srvWrongTip).2
      = Except.error (CreateErr.validation notUpToDateMsg) := by
  refine ⟨by decide, by decide, rfl⟩

/-- C6 (amended): the orchestrator performs Start BEFORE ValidateHistory:
its first two server actions are always the start-migration command and
the tip query, in that order, and only then is the tip compared with the
local history; on mismatch it stops right there — no proposal is applied,
no file is written, no abort is issued — but the start-migration command
has already been sent. -/
theorem create_order_start_before_validate (lk : List String) (st : String)
    (ni : Bool) (srv : Srv) :
    (create lk st ni srv).1.take 2 = [Effect.executeSql st, Effect.queryTip] ∧
    (srv.tip ≠ lk.getLast? →
      create lk st ni srv
        = ([Effect.executeSql st, Effect.queryTip],
            Except.error (CreateErr.validation notUpToDateMsg))) := by
  constructor
  · by_cases h : srv.tip ≠ lk.getLast?
    · rw [create_mismatch_eq lk st ni srv h]
      rfl
    · push_neg at h
      cases ni with
      | false =>
        simp only [create]
        rw [if_neg (by simp [h])]
        simp
      | true =>
        rw [create_match_eq lk st srv h]
        have h2 : (2 : Nat) ≤ ([Effect.executeSql st, Effect.queryTip]
            ++ (run_non_interactive srv (lk.length + 1)).1).length := by
          simp
        rw [List.take_append_of_le_length h2,
          List.take_append_of_le_length (by simp)]
        rfl
  · intro h
    exact create_mismatch_eq lk st ni srv h

/-- Witness for `create_order_start_before_validate`, discharging the
mismatch implication at local tip "m1" / server tip "m2". -/
theorem create_order_start_before_validate_witness :
    ((create ["m1"] "START MIGRATION TO SCHEMA2" true srvWrongTip).1.take 2
        = [Effect.executeSql "START MIGRATION TO SCHEMA2", Effect.queryTip]) ∧
    (srvWrongTip.tip ≠ (["m1"] : List String).getLast?) ∧
    (create ["m1"] "START MIGRATION TO SCHEMA2" true srvWrongTip
      = ([Effect.executeSql "START MIGRATION TO SCHEMA2", Effect.queryTip],
          Except.error (CreateErr.validation notUpToDateMsg))) :=
  ⟨(create_order_start_before_validate ["m1"] "START MIGRATION TO SCHEMA2"
      true srvWrongTip).1,
   by decide,
   (create_order_start_before_validate ["m1"] "START MIGRATION TO SCHEMA2"
      true srvWrongTip).2 (by decide)⟩

/-- C2 counterexample: on `srvBothFail` both the describe/apply loop and
the `ABORT MIGRATION` command fail, yet the error `create` returns is
exactly the loop's user-input error — a value carrying nothing of the
abort's failure (`Result::and` drops the second error when the first is
already an error) — so the "combined failure" part of the claim is
false. -/
theorem create_both_fail_masks_abort_error :
    (create [] "START MIGRATION TO SCHEMA" true srvBothFail).2
      = Except.error (CreateErr.userInput ⟨"stmt", ["p"]⟩) ∧
    srvBothFail.abortErr = some "abort failed" ∧
    CreateErr.userInput ⟨"stmt", ["p"]⟩ ≠ CreateErr.abortError "abort failed" := by
  refine ⟨rfl, rfl, by decide⟩

/-- C2 (amended): the abort command is still issued after a failed
describe/apply loop, and the loop's error takes priority — but the abort's
own error is then discarded by `Result::and`, not surfaced alongside it:
whenever the loop fails with `e`, `create` returns exactly `e`, whatever
the abort's outcome. -/
theorem create_loop_error_priority_discards_abort (lk : List String)
    (st : String) (srv : Srv) (e : CreateErr)
    (h : srv.tip = lk.getLast?)
    (hloop : (run_non_interactive srv (lk.length + 1)).2 = Except.error e) :
    (create lk st true srv).2 = Except.error e ∧
    Effect.executeSql "ABORT MIGRATION" ∈ (create lk st true srv).1 := by
  rw [create_match_eq lk st srv h]
  constructor
  · simp [resultAnd, hloop]
  · simp

/-- Witness for `create_loop_error_priority_discards_abort` on
`srvBothFail`. -/
theorem create_loop_error_priority_discards_abort_witness :
    (srvBothFail.tip = ([] : List String).getLast?) ∧
    ((run_non_interactive srvBothFail (List.length ([] : List String) + 1)).2
        = Except.error (CreateErr.userInput ⟨"stmt", ["p"]⟩)) ∧
    ((create [] "START MIGRATION TO SCHEMA3" true srvBothFail).2
        = Except.error (CreateErr.userInput ⟨"stmt", ["p"]⟩) ∧
      Effect.executeSql "ABORT MIGRATION"
        ∈ (create [] "START MIGRATION TO SCHEMA3" true srvBothFail).1) :=
  ⟨rfl, rfl,
   create_loop_error_priority_discards_abort [] "START MIGRATION TO SCHEMA3"
     srvBothFail (CreateErr.userInput ⟨"stmt", ["p"]⟩) rfl rfl⟩

/-- C8: the code's `MigrationGeneratedBy` is a closed enumeration
(`DevMode` | `DDLStatement` only; the source itself carries a TODO saying
it has to be open-ended), so a server-reported `generated_by` tag outside
the two declared variants does not decode: there is no "unknown" case to
absorb it, contradicting the claim that unrecognized future tags are
tolerated. -/
theorem decodeGeneratedBy_unknown_tag_fails :
    decodeGeneratedBy "AIGenerated" = none := by
  decide

end EdgedbCli
